import Mathlib

/-!
Shallow embedding of the go-set library (package set, file set.go).

The Go type Set[E] wraps a possibly-nil hash map m of type map[E]struct\x7b\x7d.
We model the map by the list of its keys together with the invariant that the
keys are pairwise distinct (a Go map cannot hold the same key twice); the nil
map of a zero set is modelled by none.  Variadic parameters and iter.Seq
parameters become List parameters (a finite lazy sequence drained once in
order), the Go builtin panic is modelled by returning none, and a returned Go
error is modelled by a Bool flag (true when err was non-nil).

Aliasing claims (sharing of backing storage between two Set values) are not
expressible in the value model, so a second, heap-level model is given below
(SHeap, SetRef, addH, cloneH, unionH, differenceH): a Set value is a struct
holding a map reference (nil or an address), and the heap maps addresses to
map contents.  Both models are translated from the same Go source.
-/

/-- Model of the Go map assignment m[w] = struct\x7b\x7d\x7b\x7d on a map with
key list l: a key already present is left alone, a new key is appended. -/
def mapInsert {E : Type} [DecidableEq E] (l : List E) (x : E) : List E :=
  if x ∈ l then l else l ++ [x]

/-- Inserting each element of vs in order, as the loop body of Set.Add does. -/
def addKeys {E : Type} [DecidableEq E] (l : List E) (vs : List E) : List E :=
  vs.foldl mapInsert l

theorem mem_mapInsert {E : Type} [DecidableEq E] {l : List E} {x v : E} :
    v ∈ mapInsert l x ↔ v ∈ l ∨ v = x := by
  unfold mapInsert
  by_cases h : x ∈ l
  · simp only [if_pos h]
    constructor
    · exact Or.inl
    · rintro (hv | rfl) <;> assumption
  · simp [if_neg h]

theorem mapInsert_nodup {E : Type} [DecidableEq E] {l : List E} (x : E)
    (h : l.Nodup) : (mapInsert l x).Nodup := by
  unfold mapInsert
  by_cases hx : x ∈ l
  · simpa [if_pos hx]
  · rw [if_neg hx, List.nodup_append]
    refine ⟨h, List.nodup_singleton x, ?_⟩
    intro a ha hax
    rw [List.mem_singleton] at hax
    exact hx (hax ▸ ha)

theorem mem_addKeys {E : Type} [DecidableEq E] {l vs : List E} {v : E} :
    v ∈ addKeys l vs ↔ v ∈ l ∨ v ∈ vs := by
  induction vs generalizing l with
  | nil => simp [addKeys]
  | cons x t ih =>
      show v ∈ addKeys (mapInsert l x) t ↔ _
      rw [ih, mem_mapInsert]
      simp [or_assoc, eq_comm]

theorem addKeys_nodup {E : Type} [DecidableEq E] {l : List E} (vs : List E)
    (h : l.Nodup) : (addKeys l vs).Nodup := by
  induction vs generalizing l with
  | nil => exact h
  | cons x t ih => exact ih (mapInsert_nodup x h)

theorem addKeys_nil {E : Type} [DecidableEq E] (l : List E) :
    addKeys l [] = l := rfl

/-- The Go type Set[E]: a possibly-nil map from E to struct\x7b\x7d, modelled
by the list of its keys (none models the nil map of a zero set).  The Nodup
invariant mirrors the uniqueness of Go map keys. -/
structure GoSet (E : Type) where
  m : Option {l : List E // l.Nodup}

/-- The key list of the underlying map; the nil map has no keys.  This is the
element enumeration that the Go range loops (Set.All) traverse. -/
def GoSet.keys {E : Type} (s : GoSet E) : List E :=
  match s.m with
  | none => []
  | some l => l.val

theorem GoSet.keys_nodup {E : Type} (s : GoSet E) : s.keys.Nodup := by
  unfold GoSet.keys
  match s.m with
  | none => exact List.nodup_nil
  | some l => exact l.property

/-- Set.IsZero: reports whether the map was never allocated (s.m == nil). -/
def GoSet.IsZero {E : Type} (s : GoSet E) : Bool :=
  s.m.isNone

/-- Set.Size: len(s.m). -/
def GoSet.Size {E : Type} (s : GoSet E) : Nat :=
  s.keys.length

/-- Set.Contains: the two-valued map lookup _, ok := s.m[v]. -/
def GoSet.Contains {E : Type} [DecidableEq E] (s : GoSet E) (v : E) : Bool :=
  decide (v ∈ s.keys)

/-- Set.Add: allocates the map when it is nil (this happens before the loop,
so it happens even for an empty argument list), then inserts each value. -/
def GoSet.Add {E : Type} [DecidableEq E] (s : GoSet E) (vs : List E) : GoSet E :=
  ⟨some ⟨addKeys s.keys vs, addKeys_nodup vs s.keys_nodup⟩⟩

/-- Of: declares a zero set, calls Add on the given values and returns it. -/
def GoSet.Of {E : Type} [DecidableEq E] (vs : List E) : GoSet E :=
  GoSet.Add ⟨none⟩ vs

/-- Set.Clear: the Go builtin clear on a map empties it in place and is a
no-op on a nil map, so allocation status is preserved. -/
def GoSet.Clear {E : Type} (s : GoSet E) : GoSet E :=
  ⟨s.m.map (fun _ => ⟨[], List.nodup_nil⟩)⟩

/-- Set.Clone: maps.Clone copies the key set and maps nil to nil, so at the
level of values the clone is the same set value. -/
def GoSet.Clone {E : Type} (s : GoSet E) : GoSet E :=
  ⟨s.m⟩

/-- Set.Equal: size comparison, the short cut for two empty maps, then a
one-directional containment check over the keys of s. -/
def GoSet.Equal {E : Type} [DecidableEq E] (s u : GoSet E) : Bool :=
  if s.Size ≠ u.Size then false
  else if s.Size = 0 ∧ u.Size = 0 then true
  else s.keys.all (fun v => u.Contains v)

theorem GoSet.keys_Add {E : Type} [DecidableEq E] (s : GoSet E) (vs : List E) :
    (s.Add vs).keys = addKeys s.keys vs := rfl

theorem GoSet.keys_Clear {E : Type} (s : GoSet E) : s.Clear.keys = [] := by
  unfold GoSet.Clear GoSet.keys
  match s.m with
  | none => rfl
  | some l => rfl

theorem GoSet.contains_iff {E : Type} [DecidableEq E] (s : GoSet E) (v : E) :
    s.Contains v = true ↔ v ∈ s.keys := by
  simp [GoSet.Contains]

/-- Model of a JSON document as seen by UnmarshalJSON for a slice target:
null, an array of decoded elements, or any other input (an object, a scalar,
or malformed text). -/
inductive JVal (E : Type) where
  | null
  | arr (l : List E)
  | other

/-- Model of the call json.Unmarshal(b, &i) with i of slice type []T:
null decodes to the nil slice (none), an array decodes to its elements
(a non-nil slice, even when empty), anything else is a decode error. -/
def jsonUnmarshalList {E : Type} : JVal E → Except Unit (Option (List E))
  | JVal.null => Except.ok none
  | JVal.arr l => Except.ok (some l)
  | JVal.other => Except.error ()

/-- Set.MarshalJSON: a nil map encodes to JSON null, otherwise the elements
are collected into a slice (in map iteration order) and encoded as an array.
The error result of the Go function is always nil here, so it is omitted. -/
def GoSet.MarshalJSON {E : Type} (s : GoSet E) : JVal E :=
  match s.m with
  | none => JVal.null
  | some l => JVal.arr l.val

/-- Set.UnmarshalJSON on receiver s: decode into a slice i; on a decode error
return the error with s untouched (the early return happens before any write
to s); a nil slice (JSON null) makes s a zero set; otherwise s.Clear() then
s.Add(i...).  The result pairs the new state of s with the error flag. -/
def GoSet.UnmarshalJSON {E : Type} [DecidableEq E] (s : GoSet E) (b : JVal E) :
    GoSet E × Bool :=
  match jsonUnmarshalList b with
  | Except.error _ => (s, true)
  | Except.ok none => (⟨none⟩, false)
  | Except.ok (some i) => (s.Clear.Add i, false)

/-- Helper naming the loop shape for v := range l \x7b r.Add(v) \x7d. -/
def addAll {E : Type} [DecidableEq E] (r : GoSet E) (l : List E) : GoSet E :=
  l.foldl (fun r v => r.Add [v]) r

/-- Collect: declares a zero set and adds every element of the sequence. -/
def GoSet.Collect {E : Type} [DecidableEq E] (vs : List E) : GoSet E :=
  addAll ⟨none⟩ vs

/-- Union: declares a zero set r and adds every element of every input set. -/
def GoSet.Union {E : Type} [DecidableEq E] (sets : List (GoSet E)) : GoSet E :=
  sets.foldl (fun r s => addAll r s.keys) ⟨none⟩

/-- Difference: with no others the original set s is returned unchanged;
otherwise o is the union of the others and every element of s missing from o
is added to a fresh result set. -/
def GoSet.Difference {E : Type} [DecidableEq E] (s : GoSet E)
    (others : List (GoSet E)) : GoSet E :=
  if others.length = 0 then s
  else
    let o := GoSet.Union others
    s.keys.foldl (fun r v => if o.Contains v then r else r.Add [v]) ⟨none⟩

/-- Intersection: with fewer than two sets the zero result is returned;
otherwise every element of the first set contained in all remaining sets is
added to a fresh result set (the labelled continue skips an element as soon
as one set lacks it, so an element is added exactly when all contain it). -/
def GoSet.Intersection {E : Type} [DecidableEq E]
    (sets : List (GoSet E)) : GoSet E :=
  if sets.length < 2 then ⟨none⟩
  else
    match sets with
    | [] => ⟨none⟩
    | s0 :: rest =>
        s0.keys.foldl
          (fun r v => if rest.all (fun s => s.Contains v) then r.Add [v] else r)
          ⟨none⟩

/-- Max: panics (none) on an empty set; otherwise the first loop seeds m with
the first iterated element and the second loop folds the builtin max over all
elements. -/
def GoSet.Max {E : Type} [LinearOrder E] (s : GoSet E) : Option E :=
  if s.Size < 1 then none
  else
    match s.keys with
    | [] => none
    | h :: t => some ((h :: t).foldl max h)

/-- Min: as Max with the builtin min. -/
def GoSet.Min {E : Type} [LinearOrder E] (s : GoSet E) : Option E :=
  if s.Size < 1 then none
  else
    match s.keys with
    | [] => none
    | h :: t => some ((h :: t).foldl min h)

/-- MaxFunc: panics (none) on an empty set; otherwise m is seeded with the
first iterated element and replaced by x whenever cmp(x, m) > 0. -/
def GoSet.MaxFunc {E : Type} (s : GoSet E) (cmp : E → E → Int) : Option E :=
  if s.Size < 1 then none
  else
    match s.keys with
    | [] => none
    | h :: t => some ((h :: t).foldl (fun m x => if 0 < cmp x m then x else m) h)

/-- MinFunc: as MaxFunc, replacing m by x whenever cmp(x, m) < 0. -/
def GoSet.MinFunc {E : Type} (s : GoSet E) (cmp : E → E → Int) : Option E :=
  if s.Size < 1 then none
  else
    match s.keys with
    | [] => none
    | h :: t => some ((h :: t).foldl (fun m x => if cmp x m < 0 then x else m) h)

/-- Go string comparison is byte-wise lexicographic; since UTF-8 preserves
code point order, comparing the code point lists yields the same order. -/
def charListLe : List Char → List Char → Bool
  | [], _ => true
  | _ :: _, [] => false
  | a :: as, b :: bs => if a < b then true else if b < a then false else charListLe as bs

/-- Set.String: render each element to text (fmt.Sprint is passed in as
toStr), sort the rendered strings ascending as slices.Sort does, join them
with single spaces and wrap the result in curly brackets. -/
def GoSet.GoString {E : Type} (s : GoSet E) (toStr : E → String) : String :=
  "\x7b" ++
    String.intercalate " "
      (List.insertionSort (fun a b => charListLe a.data b.data = true) (s.keys.map toStr)) ++
    "\x7d"

/-- Heap of map cells: cell a holds the key list of the map allocated at
address a.  Reading an unallocated address yields the empty key list. -/
structure SHeap (E : Type) where
  cells : List (List E)

/-- Read the map contents stored at address a. -/
def SHeap.get {E : Type} (h : SHeap E) (a : Nat) : List E :=
  h.cells.getD a []

/-- Overwrite the map contents stored at address a. -/
def SHeap.setCell {E : Type} (h : SHeap E) (a : Nat) (l : List E) : SHeap E :=
  ⟨h.cells.set a l⟩

/-- A Set struct value at heap level: it holds the map reference m, which is
either nil or the address of a map cell. -/
structure SetRef where
  addr : Option Nat

/-- The elements of the referenced map, none for the nil reference. -/
def SetRef.elemsIn {E : Type} (s : SetRef) (h : SHeap E) : List E :=
  match s.addr with
  | none => []
  | some a => h.get a

/-- Heap-level Set.Contains. -/
def SetRef.containsIn {E : Type} [DecidableEq E] (s : SetRef) (h : SHeap E)
    (v : E) : Bool :=
  decide (v ∈ s.elemsIn h)

/-- Heap-level Set.Add on receiver s: a nil reference first allocates a fresh
empty map cell (also for an empty argument list), then each value is inserted
into the referenced cell.  Result: the heap after and the updated struct. -/
def addH {E : Type} [DecidableEq E] (h : SHeap E) (s : SetRef) (vs : List E) :
    SHeap E × SetRef :=
  match s.addr with
  | none => (⟨h.cells ++ [addKeys [] vs]⟩, ⟨some h.cells.length⟩)
  | some a => (h.setCell a (addKeys (h.get a) vs), s)

/-- Heap-level Set.Clone: maps.Clone maps nil to nil and otherwise allocates
a fresh map cell holding a copy of the source contents. -/
def cloneH {E : Type} (h : SHeap E) (s : SetRef) : SHeap E × SetRef :=
  match s.addr with
  | none => (h, ⟨none⟩)
  | some a => (⟨h.cells ++ [h.get a]⟩, ⟨some h.cells.length⟩)

/-- Heap-level Union: a zero result set r accumulates every element of every
input set via r.Add(v). -/
def unionH {E : Type} [DecidableEq E] (h : SHeap E) (sets : List SetRef) :
    SHeap E × SetRef :=
  sets.foldl
    (fun p s => (s.elemsIn p.1).foldl (fun q v => addH q.1 q.2 [v]) p)
    (h, ⟨none⟩)

/-- Heap-level Difference: with no others the struct s itself is returned (so
the returned Set holds the same map address); otherwise o is the union of the
others and the elements of s missing from o go into a fresh result set. -/
def differenceH {E : Type} [DecidableEq E] (h : SHeap E) (s : SetRef)
    (others : List SetRef) : SHeap E × SetRef :=
  if others.length = 0 then (h, s)
  else
    let p := unionH h others
    (s.elemsIn p.1).foldl
      (fun q v => if p.2.containsIn q.1 v then q else addH q.1 q.2 [v])
      (p.1, ⟨none⟩)

theorem GoSet.isZero_Add {E : Type} [DecidableEq E] (s : GoSet E) (vs : List E) :
    (s.Add vs).IsZero = false := rfl

theorem GoSet.size_eq_zero_iff {E : Type} (s : GoSet E) :
    s.Size = 0 ↔ s.keys = [] := by
  simp [GoSet.Size, List.length_eq_zero]

theorem mem_addAll {E : Type} [DecidableEq E] {r : GoSet E} {l : List E} {v : E} :
    v ∈ (addAll r l).keys ↔ v ∈ r.keys ∨ v ∈ l := by
  induction l generalizing r with
  | nil => simp [addAll]
  | cons x t ih =>
      show v ∈ (addAll (r.Add [x]) t).keys ↔ _
      rw [ih, GoSet.keys_Add]
      show v ∈ mapInsert r.keys x ∨ v ∈ t ↔ _
      rw [mem_mapInsert]
      simp [or_assoc, eq_comm]

theorem addAll_isZero {E : Type} [DecidableEq E] (r : GoSet E) (l : List E) :
    (addAll r l).IsZero = (r.IsZero && l.isEmpty) := by
  induction l generalizing r with
  | nil => simp [addAll]
  | cons x t ih =>
      show (addAll (r.Add [x]) t).IsZero = _
      rw [ih, GoSet.isZero_Add]
      simp

theorem keys_addAll_eq_nil {E : Type} [DecidableEq E] {r : GoSet E} {l : List E} :
    (addAll r l).keys = [] ↔ r.keys = [] ∧ l = [] := by
  rw [List.eq_nil_iff_forall_not_mem, List.eq_nil_iff_forall_not_mem,
    List.eq_nil_iff_forall_not_mem]
  constructor
  · intro h
    constructor
    · intro a ha
      exact h a (mem_addAll.mpr (Or.inl ha))
    · intro a ha
      exact h a (mem_addAll.mpr (Or.inr ha))
  · intro h a ha
    rcases mem_addAll.mp ha with h1 | h1
    · exact h.1 a h1
    · exact h.2 a h1

theorem foldl_if_add {E : Type} [DecidableEq E] (p : E → Bool) (l : List E)
    (r0 : GoSet E) :
    l.foldl (fun r v => if p v then r.Add [v] else r) r0 = addAll r0 (l.filter p) := by
  induction l generalizing r0 with
  | nil => rfl
  | cons x t ih =>
      by_cases hp : p x = true
      · rw [List.foldl_cons, if_pos hp, List.filter_cons_of_pos hp, ih]
        rfl
      · rw [List.foldl_cons, if_neg hp, List.filter_cons_of_neg hp, ih]

theorem foldl_if_skip {E : Type} [DecidableEq E] (p : E → Bool) (l : List E)
    (r0 : GoSet E) :
    l.foldl (fun r v => if p v then r else r.Add [v]) r0 =
      addAll r0 (l.filter (fun v => !p v)) := by
  induction l generalizing r0 with
  | nil => rfl
  | cons x t ih =>
      by_cases hp : p x = true
      · rw [List.foldl_cons, if_pos hp, List.filter_cons_of_neg (by simp [hp]), ih]
      · rw [List.foldl_cons, if_neg hp, List.filter_cons_of_pos (by simp [hp]), ih]
        rfl

theorem GoSet.size_def {E : Type} (s : GoSet E) : s.Size = s.keys.length := rfl

theorem GoSet.size_of_isZero {E : Type} (s : GoSet E) (h : s.IsZero = true) :
    s.Size = 0 := by
  unfold GoSet.IsZero at h
  unfold GoSet.Size GoSet.keys
  match hm : s.m with
  | none => rfl
  | some l => rw [hm] at h; simp at h

/-- Characterization of Set.Equal: despite the one-directional containment
check in the code, two sets are Equal exactly when they have the same
elements; the size comparison plus key uniqueness forces the reverse
containment. -/
theorem GoSet.equal_iff {E : Type} [DecidableEq E] (s u : GoSet E) :
    GoSet.Equal s u = true ↔ s.keys.toFinset = u.keys.toFinset := by
  unfold GoSet.Equal
  by_cases hsz : s.Size = u.Size
  · rw [if_neg (by simpa using hsz)]
    by_cases h0 : s.Size = 0 ∧ u.Size = 0
    · rw [if_pos h0]
      have hs : s.keys = [] := s.size_eq_zero_iff.mp h0.1
      have hu : u.keys = [] := u.size_eq_zero_iff.mp h0.2
      simp [hs, hu]
    · rw [if_neg h0]
      constructor
      · intro hall
        have hsub : s.keys.toFinset ⊆ u.keys.toFinset := by
          intro a ha
          rw [List.mem_toFinset] at ha ⊢
          exact (u.contains_iff a).mp (List.all_eq_true.mp hall a ha)
        apply Finset.eq_of_subset_of_card_le hsub
        rw [List.toFinset_card_of_nodup s.keys_nodup,
          List.toFinset_card_of_nodup u.keys_nodup]
        exact le_of_eq hsz.symm
      · intro hfin
        rw [List.all_eq_true]
        intro a ha
        rw [u.contains_iff, ← List.mem_toFinset, ← hfin, List.mem_toFinset]
        exact ha
  · rw [if_pos (by simpa using hsz)]
    constructor
    · intro h
      simp at h
    · intro hfin
      exfalso
      apply hsz
      have hc := congrArg Finset.card hfin
      rwa [List.toFinset_card_of_nodup s.keys_nodup,
        List.toFinset_card_of_nodup u.keys_nodup] at hc

theorem mem_unionAcc {E : Type} [DecidableEq E] (sets : List (GoSet E))
    (r0 : GoSet E) (v : E) :
    v ∈ (sets.foldl (fun r s => addAll r s.keys) r0).keys ↔
      v ∈ r0.keys ∨ ∃ s ∈ sets, v ∈ s.keys := by
  induction sets generalizing r0 with
  | nil => simp
  | cons s t ih =>
      rw [List.foldl_cons, ih, mem_addAll]
      simp only [List.mem_cons, or_assoc]
      constructor
      · rintro (h | h | ⟨w, hw, hv⟩)
        · exact Or.inl h
        · exact Or.inr ⟨s, Or.inl rfl, h⟩
        · exact Or.inr ⟨w, Or.inr hw, hv⟩
      · rintro (h | ⟨w, hw | hw, hv⟩)
        · exact Or.inl h
        · exact Or.inr (Or.inl (hw ▸ hv))
        · exact Or.inr (Or.inr ⟨w, hw, hv⟩)

theorem GoSet.mem_Union {E : Type} [DecidableEq E] (sets : List (GoSet E)) (v : E) :
    v ∈ (GoSet.Union sets).keys ↔ ∃ s ∈ sets, v ∈ s.keys := by
  unfold GoSet.Union
  rw [mem_unionAcc]
  simp [GoSet.keys]

theorem unionAcc_size_zero_isZero {E : Type} [DecidableEq E]
    (sets : List (GoSet E)) (r0 : GoSet E) (h0 : r0.Size = 0 → r0.IsZero = true)
    (hsz : (sets.foldl (fun r s => addAll r s.keys) r0).Size = 0) :
    (sets.foldl (fun r s => addAll r s.keys) r0).IsZero = true := by
  induction sets generalizing r0 with
  | nil => exact h0 hsz
  | cons s t ih =>
      rw [List.foldl_cons] at hsz ⊢
      refine ih (addAll r0 s.keys) ?_ hsz
      intro hz
      have hnil := keys_addAll_eq_nil.mp ((addAll r0 s.keys).size_eq_zero_iff.mp hz)
      rw [hnil.2]
      exact h0 ((GoSet.size_eq_zero_iff r0).mpr hnil.1)

theorem foldl_max_mem {E : Type} [LinearOrder E] (l : List E) (a : E) :
    l.foldl max a ∈ a :: l := by
  induction l generalizing a with
  | nil => simp
  | cons x t ih =>
      rw [List.foldl_cons]
      rcases List.mem_cons.mp (ih (max a x)) with h | h
      · rw [h]
        rcases max_choice a x with h1 | h1 <;> rw [h1] <;> simp
      · simp [h]

theorem le_foldl_max {E : Type} [LinearOrder E] (l : List E) (a : E) :
    a ≤ l.foldl max a ∧ ∀ x ∈ l, x ≤ l.foldl max a := by
  induction l generalizing a with
  | nil => simp
  | cons y t ih =>
      rw [List.foldl_cons]
      obtain ⟨h1, h2⟩ := ih (max a y)
      refine ⟨le_trans (le_max_left a y) h1, ?_⟩
      intro x hx
      rcases List.mem_cons.mp hx with rfl | hx
      · exact le_trans (le_max_right a x) h1
      · exact h2 x hx

theorem foldl_min_mem {E : Type} [LinearOrder E] (l : List E) (a : E) :
    l.foldl min a ∈ a :: l := by
  induction l generalizing a with
  | nil => simp
  | cons x t ih =>
      rw [List.foldl_cons]
      rcases List.mem_cons.mp (ih (min a x)) with h | h
      · rw [h]
        rcases min_choice a x with h1 | h1 <;> rw [h1] <;> simp
      · simp [h]

theorem foldl_min_le {E : Type} [LinearOrder E] (l : List E) (a : E) :
    l.foldl min a ≤ a ∧ ∀ x ∈ l, l.foldl min a ≤ x := by
  induction l generalizing a with
  | nil => simp
  | cons y t ih =>
      rw [List.foldl_cons]
      obtain ⟨h1, h2⟩ := ih (min a y)
      refine ⟨le_trans h1 (min_le_left a y), ?_⟩
      intro x hx
      rcases List.mem_cons.mp hx with rfl | hx
      · exact le_trans h1 (min_le_right a x)
      · exact h2 x hx

theorem foldl_cmpMax {E : Type} (cmp : E → E → Int)
    (H1 : ∀ a b, 0 < cmp a b ↔ cmp b a < 0)
    (H2 : ∀ a b c, cmp a b ≤ 0 → cmp b c ≤ 0 → cmp a c ≤ 0) (l : List E) (a : E) :
    l.foldl (fun m x => if 0 < cmp x m then x else m) a ∈ a :: l ∧
      cmp a (l.foldl (fun m x => if 0 < cmp x m then x else m) a) ≤ 0 ∧
      ∀ x ∈ l, cmp x (l.foldl (fun m x => if 0 < cmp x m then x else m) a) ≤ 0 := by
  induction l generalizing a with
  | nil =>
      rw [List.foldl_nil]
      refine ⟨by simp, ?_, by simp⟩
      by_contra hc
      push_neg at hc
      have h4 := (H1 a a).mp hc
      omega
  | cons y t ih =>
      rw [List.foldl_cons]
      by_cases hy : 0 < cmp y a
      · rw [if_pos hy]
        obtain ⟨hm, hc, hall⟩ := ih y
        have hay : cmp a y ≤ 0 := le_of_lt ((H1 y a).mp hy)
        refine ⟨?_, H2 _ _ _ hay hc, ?_⟩
        · rcases List.mem_cons.mp hm with h | h
          · simp [h]
          · simp [h]
        · intro x hx
          rcases List.mem_cons.mp hx with rfl | hx
          · exact hc
          · exact hall x hx
      · rw [if_neg hy]
        obtain ⟨hm, hc, hall⟩ := ih a
        have hya : cmp y a ≤ 0 := by omega
        refine ⟨?_, hc, ?_⟩
        · rcases List.mem_cons.mp hm with h | h
          · simp [h]
          · simp [h]
        · intro x hx
          rcases List.mem_cons.mp hx with rfl | hx
          · exact H2 _ _ _ hya hc
          · exact hall x hx

theorem foldl_cmpMin {E : Type} (cmp : E → E → Int)
    (H1 : ∀ a b, 0 < cmp a b ↔ cmp b a < 0)
    (H2 : ∀ a b c, cmp a b ≤ 0 → cmp b c ≤ 0 → cmp a c ≤ 0) (l : List E) (a : E) :
    l.foldl (fun m x => if cmp x m < 0 then x else m) a ∈ a :: l ∧
      0 ≤ cmp a (l.foldl (fun m x => if cmp x m < 0 then x else m) a) ∧
      ∀ x ∈ l, 0 ≤ cmp x (l.foldl (fun m x => if cmp x m < 0 then x else m) a) := by
  have Hge : ∀ a b c, 0 ≤ cmp a b → 0 ≤ cmp b c → 0 ≤ cmp a c := by
    intro a b c hab hbc
    have h1 : cmp b a ≤ 0 := by
      by_contra hc
      push_neg at hc
      exact absurd ((H1 b a).mp hc) (by omega)
    have h2 : cmp c b ≤ 0 := by
      by_contra hc
      push_neg at hc
      exact absurd ((H1 c b).mp hc) (by omega)
    have h3 : cmp c a ≤ 0 := H2 _ _ _ h2 h1
    by_contra hc
    push_neg at hc
    have h4 := (H1 c a).mpr hc
    omega
  induction l generalizing a with
  | nil =>
      rw [List.foldl_nil]
      refine ⟨by simp, ?_, by simp⟩
      by_contra hc
      push_neg at hc
      have h4 := (H1 a a).mpr hc
      omega
  | cons y t ih =>
      rw [List.foldl_cons]
      by_cases hy : cmp y a < 0
      · rw [if_pos hy]
        obtain ⟨hm, hc, hall⟩ := ih y
        have hay : 0 ≤ cmp a y := le_of_lt ((H1 a y).mpr hy)
        refine ⟨?_, Hge _ _ _ hay hc, ?_⟩
        · rcases List.mem_cons.mp hm with h | h
          · simp [h]
          · simp [h]
        · intro x hx
          rcases List.mem_cons.mp hx with rfl | hx
          · exact hc
          · exact hall x hx
      · rw [if_neg hy]
        obtain ⟨hm, hc, hall⟩ := ih a
        have hya : 0 ≤ cmp y a := by omega
        refine ⟨?_, hc, ?_⟩
        · rcases List.mem_cons.mp hm with h | h
          · simp [h]
          · simp [h]
        · intro x hx
          rcases List.mem_cons.mp hx with rfl | hx
          · exact Hge _ _ _ hya hc
          · exact hall x hx

theorem goMax_spec {E : Type} [LinearOrder E] (s : GoSet E) :
    (GoSet.Max s = none ↔ s.Size = 0) ∧
      ∀ m, GoSet.Max s = some m → m ∈ s.keys ∧ ∀ x ∈ s.keys, x ≤ m := by
  unfold GoSet.Max
  rw [GoSet.size_def]
  rcases hk : s.keys with _ | ⟨h0, t⟩
  · simp
  · rw [if_neg (by simp)]
    refine ⟨by simp, ?_⟩
    intro m hm
    obtain rfl : (h0 :: t).foldl max h0 = m := by simpa using hm
    constructor
    · rcases List.mem_cons.mp (foldl_max_mem (h0 :: t) h0) with h | h
      · rw [h]
        exact List.mem_cons_self h0 t
      · exact h
    · exact (le_foldl_max (h0 :: t) h0).2

theorem goMin_spec {E : Type} [LinearOrder E] (s : GoSet E) :
    (GoSet.Min s = none ↔ s.Size = 0) ∧
      ∀ m, GoSet.Min s = some m → m ∈ s.keys ∧ ∀ x ∈ s.keys, m ≤ x := by
  unfold GoSet.Min
  rw [GoSet.size_def]
  rcases hk : s.keys with _ | ⟨h0, t⟩
  · simp
  · rw [if_neg (by simp)]
    refine ⟨by simp, ?_⟩
    intro m hm
    obtain rfl : (h0 :: t).foldl min h0 = m := by simpa using hm
    constructor
    · rcases List.mem_cons.mp (foldl_min_mem (h0 :: t) h0) with h | h
      · rw [h]
        exact List.mem_cons_self h0 t
      · exact h
    · exact (foldl_min_le (h0 :: t) h0).2

theorem goMaxFunc_spec {E : Type} (s : GoSet E) (cmp : E → E → Int)
    (H1 : ∀ a b, 0 < cmp a b ↔ cmp b a < 0)
    (H2 : ∀ a b c, cmp a b ≤ 0 → cmp b c ≤ 0 → cmp a c ≤ 0) :
    (GoSet.MaxFunc s cmp = none ↔ s.Size = 0) ∧
      ∀ m, GoSet.MaxFunc s cmp = some m → m ∈ s.keys ∧ ∀ x ∈ s.keys, cmp x m ≤ 0 := by
  unfold GoSet.MaxFunc
  rw [GoSet.size_def]
  rcases hk : s.keys with _ | ⟨h0, t⟩
  · simp
  · rw [if_neg (by simp)]
    refine ⟨by simp, ?_⟩
    intro m hm
    obtain rfl : (h0 :: t).foldl (fun m x => if 0 < cmp x m then x else m) h0 = m := by
      simpa using hm
    obtain ⟨hmem, hc, hall⟩ := foldl_cmpMax cmp H1 H2 (h0 :: t) h0
    constructor
    · rcases List.mem_cons.mp hmem with h | h
      · rw [h]
        exact List.mem_cons_self h0 t
      · exact h
    · exact hall

theorem goMinFunc_spec {E : Type} (s : GoSet E) (cmp : E → E → Int)
    (H1 : ∀ a b, 0 < cmp a b ↔ cmp b a < 0)
    (H2 : ∀ a b c, cmp a b ≤ 0 → cmp b c ≤ 0 → cmp a c ≤ 0) :
    (GoSet.MinFunc s cmp = none ↔ s.Size = 0) ∧
      ∀ m, GoSet.MinFunc s cmp = some m → m ∈ s.keys ∧ ∀ x ∈ s.keys, 0 ≤ cmp x m := by
  unfold GoSet.MinFunc
  rw [GoSet.size_def]
  rcases hk : s.keys with _ | ⟨h0, t⟩
  · simp
  · rw [if_neg (by simp)]
    refine ⟨by simp, ?_⟩
    intro m hm
    obtain rfl : (h0 :: t).foldl (fun m x => if cmp x m < 0 then x else m) h0 = m := by
      simpa using hm
    obtain ⟨hmem, hc, hall⟩ := foldl_cmpMin cmp H1 H2 (h0 :: t) h0
    constructor
    · rcases List.mem_cons.mp hmem with h | h
      · rw [h]
        exact List.mem_cons_self h0 t
      · exact h
    · exact hall

theorem SHeap.get_setCell_self {E : Type} (h : SHeap E) (a : Nat) (l : List E)
    (ha : a < h.cells.length) : (h.setCell a l).get a = l := by
  unfold SHeap.setCell SHeap.get
  rw [List.getD_eq_getElem?_getD, List.getElem?_set_self' ]
  simp [List.getElem?_eq_getElem ha]

theorem SHeap.get_setCell_ne {E : Type} (h : SHeap E) (a b : Nat) (l : List E)
    (hab : a ≠ b) : (h.setCell a l).get b = h.get b := by
  unfold SHeap.setCell SHeap.get
  rw [List.getD_eq_getElem?_getD, List.getElem?_set_ne hab, ← List.getD_eq_getElem?_getD]

theorem SHeap.get_append_lt {E : Type} (h : SHeap E) (l : List E) (a : Nat)
    (ha : a < h.cells.length) : (SHeap.mk (h.cells ++ [l])).get a = h.get a := by
  unfold SHeap.get
  rw [List.getD_eq_getElem?_getD, List.getElem?_append, if_pos ha,
    ← List.getD_eq_getElem?_getD]

theorem SHeap.get_append_self {E : Type} (h : SHeap E) (l : List E) :
    (SHeap.mk (h.cells ++ [l])).get h.cells.length = l := by
  unfold SHeap.get
  rw [List.getD_eq_getElem?_getD]
  simp

/-- Claim C1 counterexample: on a just-declared (zero) set, Add with zero
arguments is not allocation free; afterwards IsZero reports false, while the
claim asserts it still reports true. -/
theorem add_allocates_cex :
    (GoSet.Add (⟨none⟩ : GoSet Int) []).IsZero = false := rfl

/-- Claim C1 (amended): Add with zero arguments adds no elements (the keys,
hence the size, are unchanged) but it does allocate backing storage when the
set was zero, so after any Add call, with or without values, IsZero reports
false. -/
theorem add_allocates_spec {E : Type} [DecidableEq E] (s : GoSet E) (vs : List E) :
    (s.Add vs).IsZero = false ∧ (s.Add []).keys = s.keys ∧
      (s.Add []).Size = s.Size :=
  ⟨rfl, rfl, rfl⟩

/-- Claim C2 counterexample: feeding UnmarshalJSON an input that is neither
null nor an array on a set holding two elements reports an error, but the set
still holds its two prior elements, while the claim asserts it was cleared. -/
theorem unmarshal_error_cex :
    (GoSet.UnmarshalJSON (GoSet.Of ([1, 2] : List Int)) JVal.other).2 = true ∧
      (GoSet.UnmarshalJSON (GoSet.Of ([1, 2] : List Int)) JVal.other).1.Size = 2 ∧
      (GoSet.UnmarshalJSON (GoSet.Of ([1, 2] : List Int)) JVal.other).1.Contains 1 = true := by
  refine ⟨rfl, rfl, ?_⟩
  decide

/-- Claim C2 (amended): when deserialization is given input that is neither a
null literal nor a valid array, it reports a decode error to the caller and
leaves the target set completely unchanged: the decode failure is detected
before any write to the set, so the prior contents are retained, not
cleared. -/
theorem unmarshal_error_preserves {E : Type} [DecidableEq E] (s : GoSet E) :
    GoSet.UnmarshalJSON s JVal.other = (s, true) := rfl

/-- Claim C9: constructing a set from zero values returns an allocated empty
set, not a zero set: IsZero is false, Size is 0 and the string rendering is
a pair of curly brackets. -/
theorem of_empty_allocated {E : Type} [DecidableEq E] (toStr : E → String) :
    (GoSet.Of ([] : List E)).IsZero = false ∧ (GoSet.Of ([] : List E)).Size = 0 ∧
      GoSet.GoString (GoSet.Of ([] : List E)) toStr = "\x7b\x7d" :=
  ⟨rfl, rfl, rfl⟩

/-- Claim C4: deserializing the serialization of any set s into any target
set succeeds and yields a set Equal to s; in particular a zero set goes
through the null literal and comes back as a zero set, which is Equal to s. -/
theorem marshal_unmarshal_roundtrip {E : Type} [DecidableEq E] (s t : GoSet E) :
    (GoSet.UnmarshalJSON t (GoSet.MarshalJSON s)).2 = false ∧
      GoSet.Equal (GoSet.UnmarshalJSON t (GoSet.MarshalJSON s)).1 s = true := by
  have hkeys : ∀ u : GoSet E, u.m = none → u.keys = [] := by
    intro u hu
    unfold GoSet.keys
    rw [hu]
  rcases hm : s.m with _ | l
  · have h1 : GoSet.MarshalJSON s = JVal.null := by
      unfold GoSet.MarshalJSON
      rw [hm]
    rw [h1]
    refine ⟨rfl, ?_⟩
    rw [GoSet.equal_iff]
    have h2 : (GoSet.UnmarshalJSON t (JVal.null : JVal E)).1 = ⟨none⟩ := rfl
    rw [h2, hkeys s hm, hkeys ⟨none⟩ rfl]
  · have h1 : GoSet.MarshalJSON s = JVal.arr l.val := by
      unfold GoSet.MarshalJSON
      rw [hm]
    rw [h1]
    refine ⟨rfl, ?_⟩
    rw [GoSet.equal_iff]
    have hks : s.keys = l.val := by
      unfold GoSet.keys
      rw [hm]
    have hk2 : (GoSet.UnmarshalJSON t (JVal.arr l.val)).1.keys =
        addKeys t.Clear.keys l.val := rfl
    ext a
    rw [List.mem_toFinset, List.mem_toFinset, hk2, GoSet.keys_Clear, mem_addKeys, hks]
    simp

/-- Claim C10: Equal is an equivalence relation: it is reflexive, symmetric
and transitive, even though the implementation checks only size equality and
one-directional containment. -/
theorem equal_equivalence {E : Type} [DecidableEq E] (s u t : GoSet E) :
    GoSet.Equal s s = true ∧
      (GoSet.Equal s u = true → GoSet.Equal u s = true) ∧
      (GoSet.Equal s u = true → GoSet.Equal u t = true → GoSet.Equal s t = true) := by
  refine ⟨?_, ?_, ?_⟩
  · rw [GoSet.equal_iff]
  · rw [GoSet.equal_iff, GoSet.equal_iff]
    exact Eq.symm
  · rw [GoSet.equal_iff, GoSet.equal_iff, GoSet.equal_iff]
    exact Eq.trans

/-- Claim C10 witness: symmetry applied at two concrete sets with the same
elements listed in different orders. -/
theorem equal_equivalence_witness :
    GoSet.Equal (GoSet.Of ([2, 1] : List Int)) (GoSet.Of ([1, 2] : List Int)) = true :=
  (equal_equivalence (GoSet.Of ([1, 2] : List Int)) (GoSet.Of ([2, 1] : List Int))
    (GoSet.Of ([1, 2] : List Int))).2.1 (by decide)

/-- Claim C3 counterexample: Intersection of two allocated one-element sets
and Union of one allocated empty set both produce an empty result, yet both
results are zero sets, while the claim asserts that Union and Intersection
return allocated (non-zero) sets whenever their result is empty. -/
theorem empty_result_not_allocated_cex :
    (GoSet.Intersection [GoSet.Of ([1] : List Int), GoSet.Of ([2] : List Int)]).Size = 0 ∧
      (GoSet.Intersection [GoSet.Of ([1] : List Int), GoSet.Of ([2] : List Int)]).IsZero = true ∧
      (GoSet.Union [GoSet.Of ([] : List Int)]).Size = 0 ∧
      (GoSet.Union [GoSet.Of ([] : List Int)]).IsZero = true := by
  decide

/-- Claim C3 (amended): Collect applied to an empty input sequence returns a
zero set; Union and Intersection do not differ from it in this respect: they
allocate backing storage only when inserting the first element, so each of
them returns a zero set exactly when its result is empty. -/
theorem collect_union_intersection_zero {E : Type} [DecidableEq E]
    (sets : List (GoSet E)) :
    (GoSet.Collect ([] : List E)).IsZero = true ∧
      ((GoSet.Union sets).IsZero = true ↔ (GoSet.Union sets).Size = 0) ∧
      ((GoSet.Intersection sets).IsZero = true ↔ (GoSet.Intersection sets).Size = 0) := by
  refine ⟨rfl, ⟨fun hz => (GoSet.Union sets).size_of_isZero hz, fun hsz => ?_⟩,
    ⟨fun hz => (GoSet.Intersection sets).size_of_isZero hz, fun hsz => ?_⟩⟩
  · unfold GoSet.Union at hsz ⊢
    exact unionAcc_size_zero_isZero sets ⟨none⟩ (fun _ => rfl) hsz
  · by_cases hlen : sets.length < 2
    · have hI : GoSet.Intersection sets = ⟨none⟩ := by
        unfold GoSet.Intersection
        rw [if_pos hlen]
      rw [hI]
      rfl
    · rcases sets with _ | ⟨s0, rest⟩
      · simp at hlen
      · have hI : GoSet.Intersection (s0 :: rest) =
            addAll ⟨none⟩
              (s0.keys.filter (fun v => rest.all (fun s => s.Contains v))) := by
          unfold GoSet.Intersection
          rw [if_neg hlen]
          exact foldl_if_add _ _ _
        rw [hI] at hsz ⊢
        have hnil := keys_addAll_eq_nil.mp
          ((addAll ⟨none⟩ _).size_eq_zero_iff.mp hsz)
        rw [hnil.2]
        rfl

/-- Claim C6: Intersection with two or more input sets contains exactly the
elements common to all of them; with fewer than two input sets it returns an
empty zero result regardless of the contents of a single input. -/
theorem intersection_spec {E : Type} [DecidableEq E] (sets : List (GoSet E))
    (v : E) :
    (sets.length < 2 →
        (GoSet.Intersection sets).IsZero = true ∧ (GoSet.Intersection sets).Size = 0) ∧
      (2 ≤ sets.length →
        (GoSet.Intersection sets).Contains v = sets.all (fun s => s.Contains v)) := by
  constructor
  · intro hlen
    have hI : GoSet.Intersection sets = ⟨none⟩ := by
      unfold GoSet.Intersection
      rw [if_pos hlen]
    rw [hI]
    exact ⟨rfl, rfl⟩
  · intro hlen
    have hnlt : ¬ sets.length < 2 := by omega
    rcases sets with _ | ⟨s0, rest⟩
    · simp at hlen
    · have hI : GoSet.Intersection (s0 :: rest) =
          addAll ⟨none⟩
            (s0.keys.filter (fun v => rest.all (fun s => s.Contains v))) := by
        unfold GoSet.Intersection
        rw [if_neg hnlt]
        exact foldl_if_add _ _ _
      rw [hI, Bool.eq_iff_iff, GoSet.contains_iff, mem_addAll, List.mem_filter]
      have hz : (⟨none⟩ : GoSet E).keys = [] := rfl
      rw [hz]
      simp only [List.not_mem_nil, false_or, List.all_cons, Bool.and_eq_true,
        GoSet.contains_iff]

/-- Claim C6 witness: the intersection of two concrete sets agrees with the
containment check, and the zero-input case gives a zero result. -/
theorem intersection_spec_witness :
    (GoSet.Intersection
        [GoSet.Of ([1, 2, 3, 4] : List Int), GoSet.Of ([3, 4, 5, 6] : List Int)]).Contains 3 =
        [GoSet.Of ([1, 2, 3, 4] : List Int), GoSet.Of ([3, 4, 5, 6] : List Int)].all
          (fun s => s.Contains 3) ∧
      (GoSet.Intersection ([] : List (GoSet Int))).IsZero = true :=
  ⟨(intersection_spec
      [GoSet.Of ([1, 2, 3, 4] : List Int), GoSet.Of ([3, 4, 5, 6] : List Int)] 3).2
      (by decide),
    ((intersection_spec ([] : List (GoSet Int)) 0).1 (by decide)).1⟩

theorem SetRef.elemsIn_some {E : Type} (t : SetRef) (h : SHeap E) (a : Nat)
    (ha : t.addr = some a) : SetRef.elemsIn t h = h.get a := by
  unfold SetRef.elemsIn
  rw [ha]

/-- Claim C5: Difference returns exactly the elements of s absent from the
union of the others; with zero others it returns the original struct s
unchanged, holding the same map address, so adding an element through the
returned set is visible through s (the backing storage is shared, the result
is not an independent copy). -/
theorem difference_spec {E : Type} [DecidableEq E] (s : GoSet E)
    (others : List (GoSet E)) (v : E) (hne : others ≠ [])
    (h : SHeap E) (t : SetRef) (a : Nat) (x : E)
    (ha : t.addr = some a) (hlt : a < h.cells.length) :
    (GoSet.Difference s others).Contains v =
        (s.Contains v && !(GoSet.Union others).Contains v) ∧
      differenceH h t [] = (h, t) ∧
      SetRef.containsIn t
        (addH (differenceH h t []).1 (differenceH h t []).2 [x]).1 x = true := by
  refine ⟨?_, rfl, ?_⟩
  · have hlen : ¬ others.length = 0 := by
      intro h0
      exact hne (List.length_eq_zero.mp h0)
    unfold GoSet.Difference
    rw [if_neg hlen]
    show (s.keys.foldl
        (fun (r : GoSet E) (w : E) =>
          if (GoSet.Union others).Contains w then r else r.Add [w])
        ⟨none⟩).Contains v = _
    rw [foldl_if_skip, Bool.eq_iff_iff, GoSet.contains_iff, mem_addAll,
      List.mem_filter]
    have hz : (⟨none⟩ : GoSet E).keys = [] := rfl
    rw [hz]
    simp [GoSet.contains_iff]
  · show SetRef.containsIn t (addH h t [x]).1 x = true
    have haddH : addH h t [x] = (h.setCell a (addKeys (h.get a) [x]), t) := by
      unfold addH
      rw [ha]
    rw [haddH]
    unfold SetRef.containsIn
    rw [SetRef.elemsIn_some t _ a ha, SHeap.get_setCell_self h a _ hlt]
    simp [mem_addKeys]

/-- Claim C5 witness: all three parts at concrete inputs; the heap holds one
allocated map containing 1 and 2, referenced by address 0. -/
theorem difference_spec_witness :
    ((GoSet.Difference (GoSet.Of ([1, 2, 3, 4] : List Int))
          [GoSet.Of ([3, 4, 5, 6] : List Int)]).Contains 2 =
        ((GoSet.Of ([1, 2, 3, 4] : List Int)).Contains 2 &&
          !(GoSet.Union [GoSet.Of ([3, 4, 5, 6] : List Int)]).Contains 2)) ∧
      differenceH (⟨[[1, 2]]⟩ : SHeap Int) ⟨some 0⟩ [] = (⟨[[1, 2]]⟩, ⟨some 0⟩) ∧
      SetRef.containsIn (⟨some 0⟩ : SetRef)
        (addH (differenceH (⟨[[1, 2]]⟩ : SHeap Int) ⟨some 0⟩ []).1
          (differenceH (⟨[[1, 2]]⟩ : SHeap Int) ⟨some 0⟩ []).2 [5]).1 5 = true :=
  difference_spec (GoSet.Of ([1, 2, 3, 4] : List Int))
    [GoSet.Of ([3, 4, 5, 6] : List Int)] 2 (List.cons_ne_nil _ _)
    ⟨[[1, 2]]⟩ ⟨some 0⟩ 0 5 rfl (by decide)

/-- Claim C8: every set Equals its clone and a zero set clones to a zero set;
at heap level the clone of an allocated set lives at a fresh address, so
mutating the clone by adding values never changes the elements seen through
the original reference. -/
theorem clone_spec {E : Type} [DecidableEq E] (s : GoSet E) (h : SHeap E)
    (t : SetRef) (a : Nat) (vs : List E) (ha : t.addr = some a)
    (hlt : a < h.cells.length) :
    GoSet.Equal s s.Clone = true ∧ s.Clone.IsZero = s.IsZero ∧
      SetRef.elemsIn t (addH (cloneH h t).1 (cloneH h t).2 vs).1 =
        SetRef.elemsIn t h := by
  have hclone : cloneH h t = (⟨h.cells ++ [h.get a]⟩, ⟨some h.cells.length⟩) := by
    unfold cloneH
    rw [ha]
  refine ⟨?_, rfl, ?_⟩
  · rw [GoSet.equal_iff]
    rfl
  · rw [hclone]
    have haddH : addH (⟨h.cells ++ [h.get a]⟩ : SHeap E)
        (⟨some h.cells.length⟩ : SetRef) vs =
        ((⟨h.cells ++ [h.get a]⟩ : SHeap E).setCell h.cells.length
            (addKeys ((⟨h.cells ++ [h.get a]⟩ : SHeap E).get h.cells.length) vs),
          ⟨some h.cells.length⟩) := by
      unfold addH
      rfl
    rw [haddH]
    rw [SetRef.elemsIn_some t _ a ha, SetRef.elemsIn_some t h a ha]
    rw [SHeap.get_setCell_ne _ _ _ _ (by omega)]
    exact SHeap.get_append_lt h _ a hlt

/-- Claim C8 witness: all three parts at concrete inputs; the heap holds one
allocated map containing 1 and 2, referenced by address 0, and 7 is added to
the clone. -/
theorem clone_spec_witness :
    GoSet.Equal (GoSet.Of ([1] : List Int)) (GoSet.Of ([1] : List Int)).Clone = true ∧
      (GoSet.Of ([1] : List Int)).Clone.IsZero = (GoSet.Of ([1] : List Int)).IsZero ∧
      SetRef.elemsIn (⟨some 0⟩ : SetRef)
        (addH (cloneH (⟨[[1, 2]]⟩ : SHeap Int) ⟨some 0⟩).1
          (cloneH (⟨[[1, 2]]⟩ : SHeap Int) ⟨some 0⟩).2 [7]).1 =
        SetRef.elemsIn (⟨some 0⟩ : SetRef) (⟨[[1, 2]]⟩ : SHeap Int) :=
  clone_spec (GoSet.Of ([1] : List Int)) ⟨[[1, 2]]⟩ ⟨some 0⟩ 0 [7] rfl (by decide)

/-- Claim C7: Max, Min, MaxFunc and MinFunc panic (modelled as none) exactly
when the set is empty; on a non-empty set each returns some element of the
set that is maximal, respectively minimal, under the total order of the
element type or under a supplied valid three-way comparator (one whose
strict comparison is antisymmetric and whose non-strict comparison is
transitive). -/
theorem extremal_spec {E : Type} [DecidableEq E] [LinearOrder E] (s : GoSet E)
    (cmp : E → E → Int)
    (H1 : ∀ a b, 0 < cmp a b ↔ cmp b a < 0)
    (H2 : ∀ a b c, cmp a b ≤ 0 → cmp b c ≤ 0 → cmp a c ≤ 0) :
    (GoSet.Max s = none ↔ s.Size = 0) ∧
      (GoSet.Min s = none ↔ s.Size = 0) ∧
      (GoSet.MaxFunc s cmp = none ↔ s.Size = 0) ∧
      (GoSet.MinFunc s cmp = none ↔ s.Size = 0) ∧
      (∀ m, GoSet.Max s = some m →
        s.Contains m = true ∧ ∀ x, s.Contains x = true → x ≤ m) ∧
      (∀ m, GoSet.Min s = some m →
        s.Contains m = true ∧ ∀ x, s.Contains x = true → m ≤ x) ∧
      (∀ m, GoSet.MaxFunc s cmp = some m →
        s.Contains m = true ∧ ∀ x, s.Contains x = true → cmp x m ≤ 0) ∧
      (∀ m, GoSet.MinFunc s cmp = some m →
        s.Contains m = true ∧ ∀ x, s.Contains x = true → 0 ≤ cmp x m) := by
  obtain ⟨hmax1, hmax2⟩ := goMax_spec s
  obtain ⟨hmin1, hmin2⟩ := goMin_spec s
  obtain ⟨hmaxf1, hmaxf2⟩ := goMaxFunc_spec s cmp H1 H2
  obtain ⟨hminf1, hminf2⟩ := goMinFunc_spec s cmp H1 H2
  refine ⟨hmax1, hmin1, hmaxf1, hminf1, ?_, ?_, ?_, ?_⟩
  · intro m hm
    obtain ⟨h1, h2⟩ := hmax2 m hm
    exact ⟨(s.contains_iff m).mpr h1, fun x hx => h2 x ((s.contains_iff x).mp hx)⟩
  · intro m hm
    obtain ⟨h1, h2⟩ := hmin2 m hm
    exact ⟨(s.contains_iff m).mpr h1, fun x hx => h2 x ((s.contains_iff x).mp hx)⟩
  · intro m hm
    obtain ⟨h1, h2⟩ := hmaxf2 m hm
    exact ⟨(s.contains_iff m).mpr h1, fun x hx => h2 x ((s.contains_iff x).mp hx)⟩
  · intro m hm
    obtain ⟨h1, h2⟩ := hminf2 m hm
    exact ⟨(s.contains_iff m).mpr h1, fun x hx => h2 x ((s.contains_iff x).mp hx)⟩

/-- Claim C7 witness: the empty-panic characterization instantiated at a
concrete non-empty set of booleans with a concrete valid comparator, plus a
direct evaluation showing the maximum of that set. -/
theorem extremal_spec_witness :
    (GoSet.Max (GoSet.Of [true, false]) = none ↔ (GoSet.Of [true, false]).Size = 0) ∧
      GoSet.Max (GoSet.Of [true, false]) = some true ∧
      GoSet.Max (GoSet.Of ([] : List Bool)) = none :=
  ⟨(extremal_spec (GoSet.Of [true, false])
      (fun a b => if a = b then 0 else if a then 1 else -1)
      (by decide) (by decide)).1,
    by decide, by decide⟩
